import Mathlib

/-!
Shallow embedding of the parser-combinator engine in
`src/parse/combinators.rs` of the `pivot` repository, together with
theorems settling the specification claims about its evaluation
protocol.

Strings are modelled as `List Char`.  Where the code indexes by UTF-8
byte offsets — the `Literal` arm's `s[..literal.len()]` — byte counts
are recovered with `Char.utf8Size` (`utf8Len`, `takeBytes` below), so
that Rust's panic when the byte index falls inside a multi-byte
character of the input is represented faithfully.  The Rust method
`Parser::parse` returns `Result<(String, String), String>` and may
also panic (the `Error` node's `panic!`, the `Literal` arm's string
slicing at a non-boundary byte index, and the overflowing unsigned
subtraction `range.end - range.start` in the `RepeatRange` arm); the
embedding therefore uses a three-way result: `ok matched rest`,
`err rest`, and `fatal msg` for a panic, which every arm propagates
and none catches, mirroring unwinding.

The external `regex` crate is abstracted by the function the code
actually consumes: `re.find`, returning the first match's start and
end offsets.  The external `ron::to_string` serializer applied to a
`Vec<String>` is modelled concretely by `to_string` below
(bracketed, comma-separated, double-quoted elements with `"` and `\`
escaped), matching RON's compact encoding of a string sequence.
-/

/-- A string, modelled as its list of characters. -/
abbrev Str := List Char

/-- Result of one evaluation: success with matched text and remainder,
recoverable failure carrying an error value, or a panic (`fatal`). -/
inductive ParseResult where
  | ok (matched rest : Str)
  | err (rest : Str)
  | fatal (msg : String)
deriving DecidableEq

/-- Result of one of the repetition loops in the `Repeat` /
`RepeatRange` arms: the list of matched texts in order, or a
propagated failure. -/
inductive LoopResult where
  | ok (matched : List Str) (rest : Str)
  | err (rest : Str)
  | fatal (msg : String)
deriving DecidableEq

/-- RON escaping of one character inside a double-quoted string. -/
def escape_char (c : Char) : List Char :=
  if c = '"' ∨ c = '\\' then ['\\', c] else [c]

/-- RON escaping of a whole string. -/
def escape_str : Str → Str
  | [] => []
  | c :: cs => escape_char c ++ escape_str cs

/-- A RON double-quoted string literal. -/
def quote_str (s : Str) : Str := '"' :: (escape_str s ++ ['"'])

/-- Comma-separated concatenation. -/
def join_comma : List Str → Str
  | [] => []
  | [x] => x
  | x :: y :: xs => x ++ ',' :: join_comma (y :: xs)

/-- `ron::to_string` applied to a `Vec<String>`: the structured
serialization of an ordered list of strings. -/
def to_string (xs : List Str) : Str :=
  '[' :: (join_comma (xs.map quote_str) ++ [']'])

/-- `str::len`: the length of a string in UTF-8 bytes. -/
def utf8Len : Str → Nat
  | [] => 0
  | c :: cs => c.utf8Size + utf8Len cs

/-- Splitting a string at a byte index, as Rust's `s[..n]` / `s[n..]`
slicing does: `some (p, rest)` when byte index `n` falls on a
character boundary (with `p` the characters of the first `n` bytes),
`none` when it does not (where Rust panics). -/
def takeBytes : Str → Nat → Option (Str × Str)
  | s, 0 => some ([], s)
  | [], _ + 1 => none
  | c :: cs, n + 1 =>
    if c.utf8Size ≤ n + 1 then
      match takeBytes cs (n + 1 - c.utf8Size) with
      | some (p, rest) => some (c :: p, rest)
      | none => none
    else
      none

/-- The combinator tree: `ParserKind` fused with the `subparsers`
vector of the Rust `Parser` struct (each kind carries exactly the
children the evaluator indexes).  `Regex` carries the behaviour of the
external engine's `find` (first match's start/end offsets); `Map`
carries the user function, `some` for `Ok` and `none` for `Err`. -/
inductive Parser where
  | Literal (lit : Str)
  | Regex (find : Str → Option (Nat × Nat))
  | Constant (c : Str)
  | And (l r : Parser)
  | Ignore (before : Bool) (l r : Parser)
  | Or (l r : Parser)
  | Repeat (num_repeats : Nat) (sub : Parser)
  | RepeatRange (start stop : Nat) (sub : Parser)
  | Error (msg : String)
  | Map (cfn : Str → Option Str) (sub : Parser)

/-- The mandatory loop `for _ in 0..num { let (m, r) = sub.parse(rest)?; … }`
shared by the `Repeat` arm and the first half of the `RepeatRange` arm:
run `step` exactly `n` times, threading the remainder; any failure
propagates. -/
def iterateMand (step : Str → ParseResult) : Nat → Str → LoopResult
  | 0, s => .ok [] s
  | n + 1, s =>
    match step s with
    | .ok m r =>
      match iterateMand step n r with
      | .ok ms rest => .ok (m :: ms) rest
      | .err e => .err e
      | .fatal msg => .fatal msg
    | .err e => .err e
    | .fatal msg => .fatal msg

/-- The optional loop of the `RepeatRange` arm: attempt `step` up to
`n` times; the first failing attempt stops the loop, its error value
becoming the remainder (`rest = r; break`), and is not recorded. -/
def iterateOpt (step : Str → ParseResult) : Nat → Str → LoopResult
  | 0, s => .ok [] s
  | n + 1, s =>
    match step s with
    | .ok m r =>
      match iterateOpt step n r with
      | .ok ms rest => .ok (m :: ms) rest
      | .err e => .err e
      | .fatal msg => .fatal msg
    | .err r => .ok [] r
    | .fatal msg => .fatal msg

/-- `Parser::parse`, arm by arm.  The `Literal` arm checks
`s.len() >= literal.len()` in bytes and only then slices
`s[..literal.len()]`: when that byte index is not a character
boundary of `s`, Rust panics, modelled by `fatal`; byte-slice
equality of the boundary prefix with the literal coincides with
character-list equality since UTF-8 encoding is injective.  The
`RepeatRange` arm computes `range.end - range.start` after the
mandatory loop; on `usize` overflow (`stop < start`) Rust panics,
modelled by `fatal`. -/
def Parser.parse : Parser → Str → ParseResult
  | .Literal lit => fun s =>
      if utf8Len s ≥ utf8Len lit then
        match takeBytes s (utf8Len lit) with
        | some (p, rest) => if p = lit then .ok p rest else .err s
        | none => .fatal "byte index is not a char boundary"
      else
        .err s
  | .Regex find => fun s =>
      match find s with
      | some (b, e) => if b = 0 then .ok (s.take e) (s.drop e) else .err s
      | none => .err s
  | .Constant c => fun s => .ok c s
  | .And l r => fun s =>
      match l.parse s with
      | .ok lmatched lrest =>
        match r.parse lrest with
        | .ok rmatched rrest => .ok (to_string [lmatched, rmatched]) rrest
        | .err e => .err e
        | .fatal msg => .fatal msg
      | .err e => .err e
      | .fatal msg => .fatal msg
  | .Ignore before l r => fun s =>
      if before then
        match l.parse s with
        | .ok _ rest => r.parse rest
        | .err e => .err e
        | .fatal msg => .fatal msg
      else
        match l.parse s with
        | .ok matched rest =>
          match r.parse rest with
          | .ok _ rest2 => .ok matched rest2
          | .err e => .err e
          | .fatal msg => .fatal msg
        | .err e => .err e
        | .fatal msg => .fatal msg
  | .Or l r => fun s =>
      match l.parse s with
      | .ok m rest => .ok m rest
      | .err _ => r.parse s
      | .fatal msg => .fatal msg
  | .Repeat num_repeats sub => fun s =>
      match iterateMand sub.parse num_repeats s with
      | .ok ms rest => .ok (to_string ms) rest
      | .err e => .err e
      | .fatal msg => .fatal msg
  | .RepeatRange start stop sub => fun s =>
      match iterateMand sub.parse start s with
      | .ok ms rest =>
        if stop < start then
          .fatal "attempt to subtract with overflow"
        else
          match iterateOpt sub.parse (stop - start) rest with
          | .ok ms2 rest2 => .ok (to_string (ms ++ ms2)) rest2
          | .err e => .err e
          | .fatal msg => .fatal msg
      | .err e => .err e
      | .fatal msg => .fatal msg
  | .Error msg => fun _ => .fatal msg
  | .Map cfn sub => fun s =>
      match sub.parse s with
      | .ok matched rest =>
        match cfn matched with
        | some m => .ok m rest
        | none => .err rest
      | .err e => .err e
      | .fatal msg => .fatal msg

/-- Builder `Parser::repeat_range(self, num_repeats: Range<usize>)`. -/
def Parser.repeat_range (sub : Parser) (start stop : Nat) : Parser :=
  .RepeatRange start stop sub

/-- Builder `Parser::optional()`, sugar for `repeat_range(0..1)`. -/
def Parser.optional (sub : Parser) : Parser :=
  .RepeatRange 0 1 sub

/-- `Runs p n s ms rest`: evaluating `p` succeeds `n` consecutive
times starting from input `s`, threading each remainder into the next
attempt, producing matched texts `ms` in order and final remainder
`rest`.  This is the claim-level description of "perform exactly `n`
repetitions of the operand". -/
inductive Runs (p : Parser) : Nat → Str → List Str → Str → Prop
  | zero (s : Str) : Runs p 0 s [] s
  | succ {n : Nat} {s m r : Str} {ms : List Str} {rest : Str} :
      p.parse s = .ok m r → Runs p n r ms rest → Runs p (n + 1) s (m :: ms) rest

/-- Syntactic guard: the tree contains no `Error` node, every
`RepeatRange` node has `start ≤ stop`, and every `Literal` node is
empty (a non-empty literal can hit the char-boundary slicing panic on
a suitable input), so that evaluation can never panic
(see `noFatal_sound`). -/
def noFatal : Parser → Bool
  | .Literal lit => decide (lit = [])
  | .Regex _ => true
  | .Constant _ => true
  | .And l r => noFatal l && noFatal r
  | .Ignore _ l r => noFatal l && noFatal r
  | .Or l r => noFatal l && noFatal r
  | .Repeat _ sub => noFatal sub
  | .RepeatRange start stop sub => decide (start ≤ stop) && noFatal sub
  | .Error _ => false
  | .Map _ sub => noFatal sub

theorem iterateMand_of_runs {p : Parser} :
    ∀ {n : Nat} {s : Str} {ms : List Str} {rest : Str},
      Runs p n s ms rest → iterateMand p.parse n s = .ok ms rest := by
  intro n s ms rest h
  induction h with
  | zero s => rfl
  | succ hstep _ ih =>
    simp only [iterateMand, hstep, ih]

theorem iterateMand_err_of_runs_fail {p : Parser} :
    ∀ {k : Nat} {s : Str} {ms : List Str} {r e : Str},
      Runs p k s ms r → p.parse r = .err e →
      ∀ {n : Nat}, k < n → iterateMand p.parse n s = .err e := by
  intro k s ms r e h
  induction h with
  | zero s =>
    intro hfail n hlt
    cases n with
    | zero => exact absurd hlt (by omega)
    | succ n' => simp only [iterateMand, hfail]
  | @succ k₀ s₀ m r₁ ms₀ rest hstep htail ih =>
    intro hfail n hlt
    cases n with
    | zero => exact absurd hlt (by omega)
    | succ n' =>
      have h2 : iterateMand p.parse n' r₁ = .err e := ih hfail (by omega)
      simp only [iterateMand, hstep, h2]

theorem iterateOpt_of_runs {p : Parser} :
    ∀ {n : Nat} {s : Str} {ms : List Str} {rest : Str},
      Runs p n s ms rest → iterateOpt p.parse n s = .ok ms rest := by
  intro n s ms rest h
  induction h with
  | zero s => rfl
  | succ hstep _ ih =>
    simp only [iterateOpt, hstep, ih]

theorem iterateOpt_stop_of_runs_fail {p : Parser} :
    ∀ {j : Nat} {s : Str} {ms : List Str} {r e : Str},
      Runs p j s ms r → p.parse r = .err e →
      ∀ {n : Nat}, j < n → iterateOpt p.parse n s = .ok ms e := by
  intro j s ms r e h
  induction h with
  | zero s =>
    intro hfail n hlt
    cases n with
    | zero => exact absurd hlt (by omega)
    | succ n' => simp only [iterateOpt, hfail]
  | @succ j₀ s₀ m r₁ ms₀ rest hstep htail ih =>
    intro hfail n hlt
    cases n with
    | zero => exact absurd hlt (by omega)
    | succ n' =>
      have h2 : iterateOpt p.parse n' r₁ = .ok ms₀ e := ih hfail (by omega)
      simp only [iterateOpt, hstep, h2]

/-- Inversion for one successful repetition followed by `n` more. -/
theorem runs_succ_inv {p : Parser} {n : Nat} {s : Str} {ms : List Str} {rest : Str}
    (h : Runs p (n + 1) s ms rest) :
    ∃ m r ms', p.parse s = .ok m r ∧ Runs p n r ms' rest ∧ ms = m :: ms' := by
  cases h with
  | succ hstep htail => exact ⟨_, _, _, hstep, htail, rfl⟩

/-- A run of `a + b` repetitions splits into a run of `a` followed by
a run of `b` from the intermediate remainder. -/
theorem runs_split {p : Parser} :
    ∀ {a b : Nat} {s : Str} {ms : List Str} {rest : Str},
      Runs p (a + b) s ms rest →
      ∃ ms1 mid ms2, ms = ms1 ++ ms2 ∧ Runs p a s ms1 mid ∧ Runs p b mid ms2 rest := by
  intro a
  induction a with
  | zero =>
    intro b s ms rest h
    exact ⟨[], s, ms, rfl, Runs.zero s, by simpa using h⟩
  | succ a ih =>
    intro b s ms rest h
    have h' : Runs p (a + b + 1) s ms rest := by
      have : a + 1 + b = a + b + 1 := by omega
      rwa [this] at h
    obtain ⟨m, r, ms', hstep, htail, rfl⟩ := runs_succ_inv h'
    obtain ⟨ms1, mid, ms2, rfl, h1, h2⟩ := ih htail
    exact ⟨m :: ms1, mid, ms2, rfl, Runs.succ hstep h1, h2⟩

theorem iterateMand_ne_fatal {step : Str → ParseResult}
    (h : ∀ (s : Str) (msg : String), step s ≠ .fatal msg) :
    ∀ (n : Nat) (s : Str) (msg : String), iterateMand step n s ≠ .fatal msg := by
  intro n
  induction n with
  | zero => intro s msg; simp [iterateMand]
  | succ n ih =>
    intro s msg
    simp only [iterateMand]
    cases hstep : step s with
    | ok m r =>
      cases hrec : iterateMand step n r with
      | ok ms rest => simp [hstep, hrec]
      | err e => simp [hstep, hrec]
      | fatal m2 => exact absurd hrec (ih r m2)
    | err e => simp [hstep]
    | fatal m2 => exact absurd hstep (h s m2)

theorem iterateOpt_ne_fatal {step : Str → ParseResult}
    (h : ∀ (s : Str) (msg : String), step s ≠ .fatal msg) :
    ∀ (n : Nat) (s : Str) (msg : String), iterateOpt step n s ≠ .fatal msg := by
  intro n
  induction n with
  | zero => intro s msg; simp [iterateOpt]
  | succ n ih =>
    intro s msg
    simp only [iterateOpt]
    cases hstep : step s with
    | ok m r =>
      cases hrec : iterateOpt step n r with
      | ok ms rest => simp [hstep, hrec]
      | err e => simp [hstep, hrec]
      | fatal m2 => exact absurd hrec (ih r m2)
    | err e => simp [hstep]
    | fatal m2 => exact absurd hstep (h s m2)

/-- A tree with no `Error` node and no reversed `RepeatRange` bounds
never panics: evaluation always returns an ordinary `Result`. -/
theorem noFatal_sound : ∀ (p : Parser), noFatal p = true →
    ∀ (s : Str) (msg : String), Parser.parse p s ≠ .fatal msg := by
  intro p
  induction p with
  | Literal lit =>
    intro hnf s msg
    simp only [noFatal, decide_eq_true_eq] at hnf
    subst hnf
    simp [Parser.parse, utf8Len, takeBytes]
  | Regex find =>
    intro _ s msg
    simp only [Parser.parse]
    cases find s with
    | some be =>
      obtain ⟨b, e⟩ := be
      by_cases hb : b = 0 <;> simp [hb]
    | none => simp
  | Constant c => intro _ s msg; simp [Parser.parse]
  | And l r ihl ihr =>
    intro hnf s msg
    simp only [noFatal, Bool.and_eq_true] at hnf
    simp only [Parser.parse]
    cases hl : Parser.parse l s with
    | ok lm lrest =>
      cases hr : Parser.parse r lrest with
      | ok rm rrest => simp [hl, hr]
      | err e => simp [hl, hr]
      | fatal m2 => exact absurd hr (ihr hnf.2 lrest m2)
    | err e => simp [hl]
    | fatal m2 => exact absurd hl (ihl hnf.1 s m2)
  | Ignore before l r ihl ihr =>
    intro hnf s msg
    simp only [noFatal, Bool.and_eq_true] at hnf
    simp only [Parser.parse]
    cases before with
    | true =>
      rw [if_pos rfl]
      cases hl : Parser.parse l s with
      | ok lm lrest => simp only [hl]; exact ihr hnf.2 lrest msg
      | err e => simp [hl]
      | fatal m2 => exact absurd hl (ihl hnf.1 s m2)
    | false =>
      rw [if_neg (by simp)]
      cases hl : Parser.parse l s with
      | ok lm lrest =>
        cases hr : Parser.parse r lrest with
        | ok rm rrest => simp [hl, hr]
        | err e => simp [hl, hr]
        | fatal m2 => exact absurd hr (ihr hnf.2 lrest m2)
      | err e => simp [hl]
      | fatal m2 => exact absurd hl (ihl hnf.1 s m2)
  | Or l r ihl ihr =>
    intro hnf s msg
    simp only [noFatal, Bool.and_eq_true] at hnf
    simp only [Parser.parse]
    cases hl : Parser.parse l s with
    | ok m rest => simp [hl]
    | err e => simp only [hl]; exact ihr hnf.2 s msg
    | fatal m2 => exact absurd hl (ihl hnf.1 s m2)
  | Repeat n sub ih =>
    intro hnf s msg
    simp only [noFatal] at hnf
    simp only [Parser.parse]
    cases hm : iterateMand sub.parse n s with
    | ok ms rest => simp [hm]
    | err e => simp [hm]
    | fatal m2 => exact absurd hm (iterateMand_ne_fatal (ih hnf) n s m2)
  | RepeatRange start stop sub ih =>
    intro hnf s msg
    simp only [noFatal, Bool.and_eq_true, decide_eq_true_eq] at hnf
    simp only [Parser.parse]
    cases hm : iterateMand sub.parse start s with
    | ok ms rest =>
      have hlt : ¬ stop < start := by omega
      cases ho : iterateOpt sub.parse (stop - start) rest with
      | ok ms2 rest2 => simp [hm, hlt, ho]
      | err e => simp [hm, hlt, ho]
      | fatal m2 => exact absurd ho (iterateOpt_ne_fatal (ih hnf.2) (stop - start) rest m2)
    | err e => simp [hm]
    | fatal m2 => exact absurd hm (iterateMand_ne_fatal (ih hnf.2) start s m2)
  | Error msg =>
    intro hnf
    simp [noFatal] at hnf
  | Map cfn sub ih =>
    intro hnf s msg
    simp only [noFatal] at hnf
    simp only [Parser.parse]
    cases hm : Parser.parse sub s with
    | ok matched rest => cases hc : cfn matched <;> simp [hm, hc]
    | err e => simp [hm]
    | fatal m2 => exact absurd hm (ih hnf s m2)

theorem utf8Len_append : ∀ (a b : Str), utf8Len (a ++ b) = utf8Len a + utf8Len b := by
  intro a b
  induction a with
  | nil => simp [utf8Len]
  | cons c cs ih =>
    have h1 : utf8Len ((c :: cs) ++ b) = c.utf8Size + utf8Len (cs ++ b) := rfl
    have h2 : utf8Len (c :: cs) = c.utf8Size + utf8Len cs := rfl
    rw [h1, h2, ih]
    omega

/-- The byte length of a character prefix is always a boundary, and
splitting there recovers the prefix and the tail. -/
theorem takeBytes_append : ∀ (p t : Str), takeBytes (p ++ t) (utf8Len p) = some (p, t) := by
  intro p
  induction p with
  | nil => intro t; simp [takeBytes, utf8Len]
  | cons c cs ih =>
    intro t
    have hpos : 0 < c.utf8Size := Char.utf8Size_pos c
    have hlen : utf8Len (c :: cs) = c.utf8Size + utf8Len cs := rfl
    obtain ⟨k, hk⟩ : ∃ k, utf8Len (c :: cs) = k + 1 := ⟨utf8Len (c :: cs) - 1, by omega⟩
    rw [List.cons_append, hk]
    simp only [takeBytes]
    rw [if_pos (by omega)]
    have hsub : k + 1 - c.utf8Size = utf8Len cs := by omega
    rw [hsub, ih t]

/-- A successful byte split decomposes the string at that byte
count. -/
theorem takeBytes_sound : ∀ (s : Str) (n : Nat) (p rest : Str),
    takeBytes s n = some (p, rest) → s = p ++ rest ∧ utf8Len p = n := by
  intro s
  induction s with
  | nil =>
    intro n p rest h
    cases n with
    | zero =>
      simp only [takeBytes, Option.some.injEq, Prod.mk.injEq] at h
      obtain ⟨rfl, rfl⟩ := h
      exact ⟨rfl, rfl⟩
    | succ k => exact Option.noConfusion h
  | cons c cs ih =>
    intro n p rest h
    cases n with
    | zero =>
      simp only [takeBytes, Option.some.injEq, Prod.mk.injEq] at h
      obtain ⟨rfl, rfl⟩ := h
      exact ⟨rfl, rfl⟩
    | succ k =>
      simp only [takeBytes] at h
      by_cases hc : c.utf8Size ≤ k + 1
      · rw [if_pos hc] at h
        cases htb : takeBytes cs (k + 1 - c.utf8Size) with
        | none => rw [htb] at h; exact Option.noConfusion h
        | some pr =>
          obtain ⟨p', rest'⟩ := pr
          rw [htb] at h
          simp only [Option.some.injEq, Prod.mk.injEq] at h
          obtain ⟨rfl, rfl⟩ := h
          obtain ⟨hs, hlen⟩ := ih (k + 1 - c.utf8Size) p' rest' htb
          refine ⟨by rw [hs]; rfl, ?_⟩
          have : utf8Len (c :: p') = c.utf8Size + utf8Len p' := rfl
          omega
      · rw [if_neg hc] at h
        exact Option.noConfusion h

/-- Claim C2 as stated is false at `L = "a"`, `s = "é"`: the input
does not start with the literal, yet evaluation does not fail with the
whole input — it panics, because byte index 1 (= `literal.len()`)
falls inside the two-byte character `é` when `s[..literal.len()]` is
sliced. -/
theorem literal_spec_counterexample :
    ¬ ['a'] <+: ['é'] ∧
    Parser.parse (.Literal ['a']) ['é'] = .fatal "byte index is not a char boundary" ∧
    Parser.parse (.Literal ['a']) ['é'] ≠ .err ['é'] :=
  ⟨by decide, by decide, by decide⟩

/-- Claim C2 (amended): `Literal(L)` succeeds iff the input starts
with `L`, returning `(L, remainder)` with `input = L ++ remainder`;
when the input does not start with `L` and is byte-shorter than `L`,
or `L`'s byte length falls on a character boundary of the input, it
fails returning the whole input unchanged; when `L`'s byte length
falls inside a multi-byte character of a long-enough input, evaluation
panics on the string slicing instead of failing. -/
theorem literal_spec (lit s : Str) :
    (lit <+: s →
        Parser.parse (.Literal lit) s = .ok lit (s.drop lit.length) ∧
        lit ++ s.drop lit.length = s)
    ∧ (¬ lit <+: s →
        (utf8Len s < utf8Len lit ∨ ∃ p rest, takeBytes s (utf8Len lit) = some (p, rest)) →
        Parser.parse (.Literal lit) s = .err s)
    ∧ (utf8Len lit ≤ utf8Len s → takeBytes s (utf8Len lit) = none →
        Parser.parse (.Literal lit) s = .fatal "byte index is not a char boundary") := by
  refine ⟨?_, ?_, ?_⟩
  · intro hpre
    obtain ⟨t, rfl⟩ := hpre
    have hdrop : (lit ++ t).drop lit.length = t := by simp
    have hge : utf8Len (lit ++ t) ≥ utf8Len lit := by
      rw [utf8Len_append]; omega
    refine ⟨?_, by rw [hdrop]⟩
    simp only [Parser.parse]
    rw [if_pos hge]
    simp only [takeBytes_append]
    simp [hdrop]
  · intro hpre hcase
    simp only [Parser.parse]
    rcases hcase with hlt | ⟨p, rest, htb⟩
    · rw [if_neg (by omega)]
    · obtain ⟨hs, hlen⟩ := takeBytes_sound s (utf8Len lit) p rest htb
      have hge : utf8Len s ≥ utf8Len lit := by
        rw [hs, utf8Len_append]; omega
      rw [if_pos hge]
      simp only [htb]
      rw [if_neg]
      intro hpl
      exact hpre ⟨rest, by rw [← hpl, ← hs]⟩
  · intro hge htb
    simp only [Parser.parse]
    rw [if_pos hge]
    simp only [htb]

/-- Witness for `literal_spec` at `L = "a"`: success on `"ab"`, plain
failure on `"b"`, and the char-boundary panic on `"é"`. -/
theorem literal_spec_witness :
    Parser.parse (.Literal ['a']) ['a', 'b'] = .ok ['a'] (['a', 'b'].drop 1) ∧
    ['a'] ++ (['a', 'b'].drop 1) = ['a', 'b'] ∧
    Parser.parse (.Literal ['a']) ['b'] = .err ['b'] ∧
    Parser.parse (.Literal ['a']) ['é'] = .fatal "byte index is not a char boundary" :=
  ⟨((literal_spec ['a'] ['a', 'b']).1 (by decide)).1,
   ((literal_spec ['a'] ['a', 'b']).1 (by decide)).2,
   (literal_spec ['a'] ['b']).2.1 (by decide) (Or.inr ⟨['b'], [], by decide⟩),
   (literal_spec ['a'] ['é']).2.2 (by decide) (by decide)⟩

/-- Claim C9: `Constant(c)` always succeeds, returns `(c, input)` and
consumes nothing. -/
theorem constant_spec (c s : Str) : Parser.parse (.Constant c) s = .ok c s := rfl

/-- Claim C6: Alternation is strictly left-biased: if `l` succeeds its
result is returned unchanged, and if `l` fails the right branch is
evaluated against the original input `s`. -/
theorem or_spec (l r : Parser) (s : Str) :
    (∀ (m rest : Str), Parser.parse l s = .ok m rest →
        Parser.parse (.Or l r) s = .ok m rest)
    ∧ (∀ (e : Str), Parser.parse l s = .err e →
        Parser.parse (.Or l r) s = Parser.parse r s) := by
  constructor
  · intro m rest h
    simp only [Parser.parse, h]
  · intro e h
    simp only [Parser.parse, h]

/-- Witness for `or_spec`: left branch wins on `"a"`; on `"b"` the
right branch is run on the original input. -/
theorem or_spec_witness :
    Parser.parse (.Or (.Literal ['a']) (.Literal ['b'])) ['a'] = .ok ['a'] [] ∧
    Parser.parse (.Or (.Literal ['a']) (.Literal ['b'])) ['b'] =
      Parser.parse (.Literal ['b']) ['b'] :=
  ⟨(or_spec (.Literal ['a']) (.Literal ['b']) ['a']).1 ['a'] [] (by decide),
   (or_spec (.Literal ['a']) (.Literal ['b']) ['b']).2 ['b'] (by decide)⟩

/-- Claim C7: Sequence evaluates `l` first and `r` only on `l`'s
success against `l`'s remainder; either failure propagates its error
value immediately (independently of `r` when `l` fails); on success
the matched text is the structured serialization of the two matched
texts, with `r`'s remainder as the node's remainder. -/
theorem and_spec (l r : Parser) (s : Str) :
    (∀ (lm lrest rm rrest : Str),
        Parser.parse l s = .ok lm lrest → Parser.parse r lrest = .ok rm rrest →
        Parser.parse (.And l r) s = .ok (to_string [lm, rm]) rrest)
    ∧ (∀ (e : Str), Parser.parse l s = .err e → Parser.parse (.And l r) s = .err e)
    ∧ (∀ (lm lrest e : Str),
        Parser.parse l s = .ok lm lrest → Parser.parse r lrest = .err e →
        Parser.parse (.And l r) s = .err e) := by
  refine ⟨?_, ?_, ?_⟩
  · intro lm lrest rm rrest hl hr
    simp only [Parser.parse, hl, hr]
  · intro e hl
    simp only [Parser.parse, hl]
  · intro lm lrest e hl hr
    simp only [Parser.parse, hl, hr]

/-- Witness for `and_spec` on `"abc"`; the matched value is the
serialized pair, not the concatenation `"ab"`. -/
theorem and_spec_witness :
    Parser.parse (.And (.Literal ['a']) (.Literal ['b'])) ['a', 'b', 'c'] =
      .ok (to_string [['a'], ['b']]) ['c'] ∧
    to_string [['a'], ['b']] ≠ ['a'] ++ ['b'] :=
  ⟨(and_spec (.Literal ['a']) (.Literal ['b']) ['a', 'b', 'c']).1
      ['a'] ['b', 'c'] ['b'] ['c'] (by decide) (by decide),
   by decide⟩

/-- Claim C4: Transform evaluates its operand first; on success the
function is applied to the matched text, a returned replacement gives
success with the operand's remainder, and a reported failure makes the
node fail recoverably (catchable by an enclosing Alternation) with the
operand's remainder as the error value. -/
theorem map_spec (sub : Parser) (cfn : Str → Option Str) (s : Str) :
    (∀ (m rest m2 : Str), Parser.parse sub s = .ok m rest → cfn m = some m2 →
        Parser.parse (.Map cfn sub) s = .ok m2 rest)
    ∧ (∀ (m rest : Str), Parser.parse sub s = .ok m rest → cfn m = none →
        Parser.parse (.Map cfn sub) s = .err rest)
    ∧ (∀ (m rest : Str) (q : Parser), Parser.parse sub s = .ok m rest → cfn m = none →
        Parser.parse (.Or (.Map cfn sub) q) s = Parser.parse q s) := by
  refine ⟨?_, ?_, ?_⟩
  · intro m rest m2 h hf
    simp only [Parser.parse, h, hf]
  · intro m rest h hf
    simp only [Parser.parse, h, hf]
  · intro m rest q h hf
    simp only [Parser.parse, h, hf]

/-- Witness for `map_spec` on input `"42r"`: a replacing function
succeeds with remainder `"r"`; a failing function yields a recoverable
failure with error value `"r"`, caught by an enclosing Alternation. -/
theorem map_spec_witness :
    Parser.parse (.Map (fun m => if m = ['4', '2'] then some ['o', 'k'] else none)
        (.Literal ['4', '2'])) ['4', '2', 'r'] = .ok ['o', 'k'] ['r'] ∧
    Parser.parse (.Map (fun _ => none) (.Literal ['4', '2'])) ['4', '2', 'r'] = .err ['r'] ∧
    Parser.parse (.Or (.Map (fun _ => none) (.Literal ['4', '2'])) (.Constant ['c']))
        ['4', '2', 'r'] = Parser.parse (.Constant ['c']) ['4', '2', 'r'] :=
  ⟨(map_spec (.Literal ['4', '2']) _ ['4', '2', 'r']).1 ['4', '2'] ['r'] ['o', 'k']
      (by decide) (by decide),
   (map_spec (.Literal ['4', '2']) _ ['4', '2', 'r']).2.1 ['4', '2'] ['r'] (by decide) rfl,
   (map_spec (.Literal ['4', '2']) _ ['4', '2', 'r']).2.2 ['4', '2'] ['r'] (.Constant ['c'])
      (by decide) rfl⟩

/-- Claim C5: the `Error` node is fatal: it aborts the whole run with
its message, an enclosing Alternation never swallows it (the right
branch is irrelevant), and no ordinary `Result` is produced. -/
theorem error_fatal (msg : String) (s : Str) :
    Parser.parse (.Error msg) s = .fatal msg
    ∧ (∀ r : Parser, Parser.parse (.Or (.Error msg) r) s = .fatal msg)
    ∧ (∀ (r : Parser) (m rest : Str), Parser.parse (.Or (.Error msg) r) s ≠ .ok m rest)
    ∧ (∀ (r : Parser) (e : Str), Parser.parse (.Or (.Error msg) r) s ≠ .err e) := by
  refine ⟨rfl, fun r => rfl, ?_, ?_⟩
  · intro r m rest h
    exact ParseResult.noConfusion h
  · intro r e h
    exact ParseResult.noConfusion h

/-- Claim C8: a `Regex` node succeeds iff the engine's first match
starts at offset 0, returning the matched span and the remainder after
it; a match starting later, or no match, fails with the whole input. -/
theorem regex_spec (find : Str → Option (Nat × Nat)) (s : Str) :
    (∀ stop : Nat, find s = some (0, stop) →
        Parser.parse (.Regex find) s = .ok (s.take stop) (s.drop stop) ∧
        s.take stop ++ s.drop stop = s)
    ∧ (∀ b e : Nat, find s = some (b, e) → b ≠ 0 → Parser.parse (.Regex find) s = .err s)
    ∧ (find s = none → Parser.parse (.Regex find) s = .err s)
    ∧ ((∃ m r, Parser.parse (.Regex find) s = .ok m r) ↔
        ∃ stop, find s = some (0, stop)) := by
  refine ⟨?_, ?_, ?_, ?_, ?_⟩
  · intro stop h
    refine ⟨?_, List.take_append_drop stop s⟩
    simp only [Parser.parse, h]
    simp
  · intro b e h hb
    simp only [Parser.parse, h]
    rw [if_neg hb]
  · intro h
    simp only [Parser.parse, h]
  · rintro ⟨m, r, hok⟩
    cases hf : find s with
    | none =>
      simp only [Parser.parse, hf] at hok
      exact ParseResult.noConfusion hok
    | some be =>
      obtain ⟨b, e⟩ := be
      by_cases hb : b = 0
      · exact ⟨e, by rw [hb]⟩
      · simp only [Parser.parse, hf, if_neg hb] at hok
        exact ParseResult.noConfusion hok
  · rintro ⟨stop, hf⟩
    refine ⟨s.take stop, s.drop stop, ?_⟩
    simp only [Parser.parse, hf]
    simp

/-- Witness for `regex_spec`: an anchored match at offset 0 succeeds;
a first match at offset 1 and no match both fail with the input. -/
theorem regex_spec_witness :
    Parser.parse (.Regex (fun t => if t.take 1 = ['a'] then some (0, 1) else none))
      ['a', 'b'] = .ok (['a', 'b'].take 1) (['a', 'b'].drop 1) ∧
    Parser.parse (.Regex (fun _ => some (1, 2))) ['a', 'b'] = .err ['a', 'b'] ∧
    Parser.parse (.Regex (fun _ => none)) ['a', 'b'] = .err ['a', 'b'] :=
  ⟨((regex_spec (fun t => if t.take 1 = ['a'] then some (0, 1) else none) ['a', 'b']).1
      1 (by decide)).1,
   (regex_spec (fun _ => some (1, 2)) ['a', 'b']).2.1 1 2 rfl (by decide),
   (regex_spec (fun _ => none) ['a', 'b']).2.2.1 rfl⟩

/-- Claim C3: `FixedRepeat(op, n)` runs `op` exactly `n` times,
threading remainders; if any of the `n` attempts fails (say after `k`
successes), that failure's error value propagates as the node's
failure.  In particular `Repeat 2` of `Literal "x"` on `"xy"` fails
with error value `"y"`. -/
theorem fixed_repeat_spec :
    (∀ (sub : Parser) (n : Nat) (s : Str) (ms : List Str) (rest : Str),
        Runs sub n s ms rest →
        Parser.parse (.Repeat n sub) s = .ok (to_string ms) rest)
    ∧ (∀ (sub : Parser) (n k : Nat) (s : Str) (ms : List Str) (r e : Str),
        k < n → Runs sub k s ms r → Parser.parse sub r = .err e →
        Parser.parse (.Repeat n sub) s = .err e)
    ∧ Parser.parse (.Repeat 2 (.Literal ['x'])) ['x', 'y'] = .err ['y'] := by
  refine ⟨?_, ?_, by decide⟩
  · intro sub n s ms rest h
    simp only [Parser.parse, iterateMand_of_runs h]
  · intro sub n k s ms r e hlt h hfail
    simp only [Parser.parse, iterateMand_err_of_runs_fail h hfail hlt]

/-- Witness for `fixed_repeat_spec`: one success then a failure under
`Repeat 2` propagates the error value `"y"`; `Repeat 1` succeeds. -/
theorem fixed_repeat_spec_witness :
    Parser.parse (.Repeat 1 (.Literal ['x'])) ['x', 'y'] = .ok (to_string [['x']]) ['y'] ∧
    Parser.parse (.Repeat 2 (.Literal ['x'])) ['x', 'y'] = .err ['y'] :=
  ⟨fixed_repeat_spec.1 (.Literal ['x']) 1 ['x', 'y'] [['x']] ['y']
      (Runs.succ (by decide) (Runs.zero ['y'])),
   fixed_repeat_spec.2.1 (.Literal ['x']) 2 1 ['x', 'y'] [['x']] ['y'] ['y'] (by omega)
      (Runs.succ (by decide) (Runs.zero ['y'])) (by decide)⟩

/-- Claim C1: `BoundedRepeat(op, min..max)` performs exactly `min`
mandatory repetitions, propagating any failure among them; it then
attempts up to `max-min` additional repetitions, stopping at the first
failing attempt without propagating it, taking that attempt's error
value as the final remainder and excluding it from the matched text.
`RepeatRange 0 3` over `Literal "x"` matches three `"x"`s on `"xxxy"`
with remainder `"y"`, one on `"xy"`, and zero on `"y"`, never
failing. -/
theorem bounded_repeat_spec :
    (∀ (sub : Parser) (mn mx k : Nat) (s : Str) (ms : List Str) (r e : Str),
        k < mn → Runs sub k s ms r → Parser.parse sub r = .err e →
        Parser.parse (.RepeatRange mn mx sub) s = .err e)
    ∧ (∀ (sub : Parser) (mn mx j : Nat) (s : Str) (ms : List Str) (r e : Str),
        j < mx - mn → Runs sub (mn + j) s ms r → Parser.parse sub r = .err e →
        Parser.parse (.RepeatRange mn mx sub) s = .ok (to_string ms) e)
    ∧ (∀ (sub : Parser) (mn mx : Nat) (s : Str) (ms : List Str) (rest : Str),
        mn ≤ mx → Runs sub mx s ms rest →
        Parser.parse (.RepeatRange mn mx sub) s = .ok (to_string ms) rest)
    ∧ Parser.parse (.RepeatRange 0 3 (.Literal ['x'])) ['x', 'x', 'x', 'y'] =
        .ok (to_string [['x'], ['x'], ['x']]) ['y']
    ∧ Parser.parse (.RepeatRange 0 3 (.Literal ['x'])) ['x', 'y'] =
        .ok (to_string [['x']]) ['y']
    ∧ Parser.parse (.RepeatRange 0 3 (.Literal ['x'])) ['y'] =
        .ok (to_string []) ['y'] := by
  refine ⟨?_, ?_, ?_, by decide, by decide, by decide⟩
  · intro sub mn mx k s ms r e hlt h hfail
    simp only [Parser.parse, iterateMand_err_of_runs_fail h hfail hlt]
  · intro sub mn mx j s ms r e hlt h hfail
    obtain ⟨ms1, mid, ms2, rfl, h1, h2⟩ := runs_split h
    have hge : ¬ mx < mn := by omega
    simp only [Parser.parse, iterateMand_of_runs h1, if_neg hge,
      iterateOpt_stop_of_runs_fail h2 hfail hlt]
  · intro sub mn mx s ms rest hle h
    have h' : Runs sub (mn + (mx - mn)) s ms rest := by
      rwa [Nat.add_sub_cancel' hle]
    obtain ⟨ms1, mid, ms2, rfl, h1, h2⟩ := runs_split h'
    have hge : ¬ mx < mn := by omega
    simp only [Parser.parse, iterateMand_of_runs h1, if_neg hge, iterateOpt_of_runs h2]

/-- Witness for `bounded_repeat_spec`: a mandatory-phase failure under
`RepeatRange 2 3`, an optional-phase stop under `RepeatRange 0 3`, and
a full run under `RepeatRange 1 2`. -/
theorem bounded_repeat_spec_witness :
    Parser.parse (.RepeatRange 2 3 (.Literal ['x'])) ['x', 'y'] = .err ['y'] ∧
    Parser.parse (.RepeatRange 0 3 (.Literal ['x'])) ['x', 'y'] =
      .ok (to_string [['x']]) ['y'] ∧
    Parser.parse (.RepeatRange 1 2 (.Literal ['x'])) ['x', 'x', 'z'] =
      .ok (to_string [['x'], ['x']]) ['z'] :=
  ⟨bounded_repeat_spec.1 (.Literal ['x']) 2 3 1 ['x', 'y'] [['x']] ['y'] ['y'] (by omega)
      (Runs.succ (by decide) (Runs.zero ['y'])) (by decide),
   bounded_repeat_spec.2.1 (.Literal ['x']) 0 3 1 ['x', 'y'] [['x']] ['y'] ['y'] (by omega)
      (Runs.succ (by decide) (Runs.zero ['y'])) (by decide),
   bounded_repeat_spec.2.2.1 (.Literal ['x']) 1 2 ['x', 'x', 'z'] [['x'], ['x']] ['z']
      (by omega)
      (Runs.succ
        (show Parser.parse (.Literal ['x']) ['x', 'x', 'z'] = .ok ['x'] ['x', 'z'] by decide)
        (Runs.succ
          (show Parser.parse (.Literal ['x']) ['x', 'z'] = .ok ['x'] ['z'] by decide)
          (Runs.zero ['z'])))⟩

/-- Claim C10: with reversed bounds (`max < min`) from
`repeat_range(min..max)`, on any input where the `min` mandatory
repetitions succeed, evaluation hits the overflowing unsigned
subtraction `max - min` and panics instead of returning a `Result`;
under the precondition `min ≤ max` (and a subtree that cannot itself
panic) evaluation never panics. -/
theorem repeat_range_overflow :
    (∀ (sub : Parser) (mn mx : Nat) (s : Str) (ms : List Str) (r : Str),
        mx < mn → Runs sub mn s ms r →
        Parser.parse (Parser.repeat_range sub mn mx) s =
          .fatal "attempt to subtract with overflow")
    ∧ (∀ (sub : Parser) (mn mx : Nat) (s : Str), mn ≤ mx → noFatal sub = true →
        ∀ msg : String, Parser.parse (Parser.repeat_range sub mn mx) s ≠ .fatal msg) := by
  constructor
  · intro sub mn mx s ms r hlt h
    simp only [Parser.repeat_range, Parser.parse, iterateMand_of_runs h, if_pos hlt]
  · intro sub mn mx s hle hnf msg
    have hall : noFatal (.RepeatRange mn mx sub) = true := by
      simp [noFatal, hle, hnf]
    exact noFatal_sound _ hall s msg

/-- Witness for `repeat_range_overflow`: `repeat_range(1..0)` panics
once the single mandatory repetition succeeds; `repeat_range(0..1)`
never panics on a panic-free operand. -/
theorem repeat_range_overflow_witness :
    Parser.parse (Parser.repeat_range (.Literal ['x']) 1 0) ['x'] =
      .fatal "attempt to subtract with overflow" ∧
    Parser.parse (Parser.repeat_range (.Constant ['c']) 0 1) ['x'] ≠
      .fatal "attempt to subtract with overflow" :=
  ⟨repeat_range_overflow.1 (.Literal ['x']) 1 0 ['x'] [['x']] [] (by omega)
      (Runs.succ (by decide) (Runs.zero [])),
   repeat_range_overflow.2 (.Constant ['c']) 0 1 ['x'] (by omega) (by decide)
      "attempt to subtract with overflow"⟩

/-- Witness for `error_fatal` at message `"boom"` and input `"a"`. -/
theorem error_fatal_witness :
    Parser.parse (.Error "boom") ['a'] = .fatal "boom" ∧
    Parser.parse (.Or (.Error "boom") (.Constant ['c'])) ['a'] = .fatal "boom" :=
  ⟨(error_fatal "boom" ['a']).1, (error_fatal "boom" ['a']).2.1 (.Constant ['c'])⟩
